import Mathlib

/-!
Shallow embedding of the data-access layer of the NutraIQX project/task
tracker (src/app.py) over an explicit relational-state model, together with
proofs of the spec's claims about it.

The database (PostgreSQL, schema created by `init_db`) is modelled as an
explicit state:

* `projects(id SERIAL PRIMARY KEY, name TEXT UNIQUE NOT NULL)`
* `tasks(id SERIAL PRIMARY KEY, project_id INTEGER REFERENCES projects(id)
  ON DELETE CASCADE, sno INTEGER NOT NULL, task TEXT NOT NULL DEFAULT '',
  comments TEXT NOT NULL DEFAULT '', status TEXT NOT NULL DEFAULT 'Pending')`

SQL cell values are modelled by `SqlVal` (an integer, a text, or NULL) so
that the defensive pandas coercions in `load_tasks` (lines 132-137 of
src/app.py) are represented faithfully.  `ORDER BY` is modelled by the
stable `List.insertionSort`.  The schema constraints that the engine
enforces (UNIQUE name, serial keys, the foreign key) are collected in the
predicate `WF`; states the database can actually hold satisfy it.
-/

namespace NutraIQX

/-- A SQL cell value: NULL, an integer, or a text. -/
inductive SqlVal where
  | vnull : SqlVal
  | vint (i : Int) : SqlVal
  | vtext (s : String) : SqlVal
  deriving DecidableEq, Repr

/-- A row of the `projects` table. -/
structure ProjectRow where
  id : Nat
  name : String
  deriving DecidableEq, Repr

/-- A row of the `tasks` table. -/
structure TaskRow where
  id : Nat
  project_id : Nat
  sno : SqlVal
  task : SqlVal
  comments : SqlVal
  status : SqlVal
  deriving DecidableEq, Repr

/-- One record of the in-memory task DataFrame as the UI hands it to
`save_tasks` and receives it from `load_tasks`: columns `S.No.`, `Task`,
`Comments`, `Status` (the surrogate `id` is never surfaced). -/
structure Record where
  sno : Int
  task : String
  comments : String
  status : String
  deriving DecidableEq, Repr

/-- The database state: the two tables plus the SERIAL counters. -/
structure DBState where
  projects : List ProjectRow
  tasks : List TaskRow
  nextProjectId : Nat
  nextTaskId : Nat
  deriving DecidableEq, Repr

/-- The empty store right after `init_db` on a fresh database: both tables
empty, both SERIAL counters at 1. -/
def initState : DBState := ⟨[], [], 1, 1⟩

/-- PostgreSQL ascending comparison on an integer-typed column, NULLS LAST
(the default for ascending `ORDER BY`). -/
def sqlLe : SqlVal → SqlVal → Bool
  | _, .vnull => true
  | .vnull, _ => false
  | .vint i, .vint j => i ≤ j
  | .vint _, .vtext _ => true
  | .vtext _, .vint _ => false
  | .vtext s, .vtext t => s ≤ t

/-- `ORDER BY id` comparison for project rows. -/
def projLe (a b : ProjectRow) : Prop := a.id ≤ b.id

instance : DecidableRel projLe := fun a b => Nat.decLe a.id b.id

/-- `ORDER BY sno` comparison for task rows. -/
def taskLe (a b : TaskRow) : Prop := sqlLe a.sno b.sno = true

instance : DecidableRel taskLe := fun a b => instDecidableEqBool (sqlLe a.sno b.sno) true

/-- Interface-side comparison on records by their `S.No.` column. -/
def recLe (a b : Record) : Prop := a.sno ≤ b.sno

instance : DecidableRel recLe := fun a b => Int.decLe a.sno b.sno

/-- `get_projects` (the spec's `list_projects`): `SELECT name FROM projects
ORDER BY id`. -/
def get_projects (σ : DBState) : List String :=
  (σ.projects.insertionSort projLe).map ProjectRow.name

/-- `get_project_id`: `SELECT id FROM projects WHERE name = %s`, `fetchone`,
returning the id of the first matching row, or `none`. -/
def get_project_id (σ : DBState) (name : String) : Option Nat :=
  (σ.projects.find? (fun p => p.name == name)).map ProjectRow.id

/-- The database error the UNIQUE constraint on `projects.name` raises. -/
inductive DBError where
  | uniqueViolation : DBError
  deriving DecidableEq, Repr

/-- `create_project`: `INSERT INTO projects (name) VALUES (%s)`.  The UNIQUE
constraint on `name` makes the insert fail (and the transaction roll back,
leaving the state unchanged) when the name is already present; otherwise the
row is appended with the next SERIAL id. -/
def create_project (σ : DBState) (name : String) : Except DBError DBState :=
  if σ.projects.any (fun p => p.name == name) then
    .error .uniqueViolation
  else
    .ok { σ with
          projects := σ.projects ++ [⟨σ.nextProjectId, name⟩],
          nextProjectId := σ.nextProjectId + 1 }

/-- `delete_project`: `DELETE FROM projects WHERE name = %s`; the
`ON DELETE CASCADE` foreign key removes every task row whose `project_id`
references a deleted project row. -/
def delete_project (σ : DBState) (name : String) : DBState :=
  let removed := σ.projects.filter (fun p => p.name == name)
  { σ with
    projects := σ.projects.filter (fun p => !(p.name == name)),
    tasks := σ.tasks.filter (fun t => removed.all (fun p => !(t.project_id == p.id))) }

/-- `empty_df`: the empty DataFrame with the four task columns. -/
def empty_df : List Record := []

/-- Decimal digit value of a character, `none` when it is not a digit. -/
def digitVal (c : Char) : Option Nat :=
  if '0' ≤ c ∧ c ≤ '9' then some (c.toNat - 48) else none

/-- Parse a non-empty all-digit character list into a number. -/
def parseDigits : List Char → Nat → Option Nat
  | [], acc => some acc
  | c :: cs, acc =>
      match digitVal c with
      | none => none
      | some d => parseDigits cs (acc * 10 + d)

/-- The integer parse inside `pd.to_numeric`: an optional sign followed by
decimal digits; anything else fails to parse. -/
def str_to_int? (s : String) : Option Int :=
  match s.data with
  | [] => none
  | '-' :: cs =>
      if cs.isEmpty then none
      else (parseDigits cs 0).map (fun v => -(v : Int))
  | cs => (parseDigits cs 0).map (fun v => (v : Int))

/-- `pd.to_numeric(col, errors="coerce")` on one cell of an integer column:
an integer stays, a text parses or becomes NaN (`none`), NULL becomes NaN. -/
def to_numeric_coerce : SqlVal → Option Int
  | .vint i => some i
  | .vtext s => str_to_int? s
  | .vnull => none

/-- `col.fillna(d).astype(str)` on one cell: NULL becomes the default `d`,
a text stays, an integer is stringified. -/
def fillna_str (v : SqlVal) (d : String) : String :=
  match v with
  | .vnull => d
  | .vtext s => s
  | .vint i => toString i

/-- The per-row effect of lines 132-137 of src/app.py: build the DataFrame
record from a fetched task row, coercing `S.No.` to an integer (NaN filled
with 0), `Task` and `Comments` to strings (NULL filled with ""), and
`Status` to a string (NULL filled with "Pending"). -/
def convRow (t : TaskRow) : Record :=
  { sno := (to_numeric_coerce t.sno).getD 0,
    task := fillna_str t.task "",
    comments := fillna_str t.comments "",
    status := fillna_str t.status "Pending" }

/-- `load_tasks`: resolve the project id (missing project gives `empty_df`),
`SELECT sno, task, comments, status FROM tasks WHERE project_id = %s ORDER BY
sno` (no rows gives `empty_df`), then the column coercions of `convRow`. -/
def load_tasks (σ : DBState) (project_name : String) : List Record :=
  match get_project_id σ project_name with
  | none => empty_df
  | some pid =>
      let rows := (σ.tasks.filter (fun t => t.project_id == pid)).insertionSort taskLe
      if rows.isEmpty then empty_df
      else rows.map convRow

/-- The rows `executemany` inserts in `save_tasks`: one task row per record,
carrying the project id, with SERIAL task ids assigned in order. -/
def insertRows (pid : Nat) : Nat → List Record → List TaskRow
  | _, [] => []
  | tid, r :: rest =>
      ⟨tid, pid, .vint r.sno, .vtext r.task, .vtext r.comments, .vtext r.status⟩
        :: insertRows pid (tid + 1) rest

/-- `save_tasks`: resolve the project id (missing project returns with no
write), then in one transaction `DELETE FROM tasks WHERE project_id = %s`
and bulk-insert the given records (no insert when the frame is empty). -/
def save_tasks (σ : DBState) (project_name : String) (df : List Record) : DBState :=
  match get_project_id σ project_name with
  | none => σ
  | some pid =>
      { σ with
        tasks := σ.tasks.filter (fun t => !(t.project_id == pid))
                  ++ insertRows pid σ.nextTaskId df,
        nextTaskId := σ.nextTaskId + df.length }

/-- The schema constraints PostgreSQL enforces on the two tables: primary
keys are distinct and below the SERIAL counters, the project names are
UNIQUE, and every task's `project_id` references an existing project row. -/
def WF (σ : DBState) : Prop :=
  (σ.projects.map ProjectRow.id).Nodup ∧
  (σ.projects.map ProjectRow.name).Nodup ∧
  (∀ p ∈ σ.projects, p.id < σ.nextProjectId) ∧
  (σ.tasks.map TaskRow.id).Nodup ∧
  (∀ t ∈ σ.tasks, t.id < σ.nextTaskId) ∧
  (∀ t ∈ σ.tasks, ∃ p ∈ σ.projects, t.project_id = p.id)

instance : DecidablePred WF := fun σ => by
  unfold WF; infer_instance

/-- The states reachable from the empty store by the data-access operations.
`get_projects`, `get_project_id` and `load_tasks` only read; a failing
`create_project` rolls back; so the state-changing steps are a successful
`create_project`, `delete_project`, and `save_tasks`. -/
inductive Reachable : DBState → Prop
  | init : Reachable initState
  | create (σ σ' : DBState) (n : String) :
      Reachable σ → create_project σ n = .ok σ' → Reachable σ'
  | delete (σ : DBState) (n : String) :
      Reachable σ → Reachable (delete_project σ n)
  | save (σ : DBState) (n : String) (df : List Record) :
      Reachable σ → Reachable (save_tasks σ n df)

/-! ### Order facts for the `ORDER BY` relations -/

theorem sqlLe_trans {a b c : SqlVal} (h₁ : sqlLe a b = true) (h₂ : sqlLe b c = true) :
    sqlLe a c = true := by
  cases a <;> cases b <;> cases c <;> simp_all [sqlLe] <;> exact le_trans h₁ h₂

theorem sqlLe_total (a b : SqlVal) : sqlLe a b = true ∨ sqlLe b a = true := by
  cases a <;> cases b <;> simp [sqlLe] <;> exact le_total _ _

instance : IsTrans TaskRow taskLe := ⟨fun _ _ _ => sqlLe_trans⟩

instance : IsTotal TaskRow taskLe := ⟨fun a b => sqlLe_total a.sno b.sno⟩

instance : IsTrans Record recLe := ⟨fun _ _ _ h₁ h₂ => le_trans h₁ h₂⟩

instance : IsTotal Record recLe := ⟨fun a b => Int.le_total a.sno b.sno⟩

instance : IsTrans ProjectRow projLe := ⟨fun _ _ _ h₁ h₂ => Nat.le_trans h₁ h₂⟩

instance : IsTotal ProjectRow projLe := ⟨fun a b => Nat.le_total a.id b.id⟩

/-! ### Facts about `get_project_id` -/

theorem get_project_id_eq_none_iff {σ : DBState} {n : String} :
    get_project_id σ n = none ↔ ∀ p ∈ σ.projects, p.name ≠ n := by
  simp [get_project_id, List.find?_eq_none]

theorem exists_of_get_project_id_eq_some {σ : DBState} {n : String} {pid : Nat}
    (h : get_project_id σ n = some pid) :
    ∃ p ∈ σ.projects, p.name = n ∧ p.id = pid := by
  unfold get_project_id at h
  cases hf : σ.projects.find? (fun p => p.name == n) with
  | none => rw [hf] at h; exact absurd h (by simp)
  | some p =>
      rw [hf] at h
      refine ⟨p, List.mem_of_find?_eq_some hf, ?_, ?_⟩
      · have := List.find?_some hf
        simpa using this
      · simpa using h

theorem get_project_id_isSome_of_mem {σ : DBState} {n : String} {p : ProjectRow}
    (hp : p ∈ σ.projects) (hn : p.name = n) : ∃ pid, get_project_id σ n = some pid := by
  cases h : get_project_id σ n with
  | none => exact absurd (get_project_id_eq_none_iff.mp h p hp) (by simp [hn])
  | some pid => exact ⟨pid, rfl⟩

theorem get_project_id_congr {σ' σ : DBState} (n : String) (h : σ'.projects = σ.projects) :
    get_project_id σ' n = get_project_id σ n := by
  unfold get_project_id; rw [h]

/-! ### Facts about `save_tasks` and `insertRows` -/

theorem save_tasks_projects (σ : DBState) (n : String) (df : List Record) :
    (save_tasks σ n df).projects = σ.projects := by
  unfold save_tasks; cases get_project_id σ n <;> rfl

theorem save_tasks_nextProjectId (σ : DBState) (n : String) (df : List Record) :
    (save_tasks σ n df).nextProjectId = σ.nextProjectId := by
  unfold save_tasks; cases get_project_id σ n <;> rfl

theorem save_tasks_tasks {σ : DBState} {n : String} {pid : Nat} (df : List Record)
    (h : get_project_id σ n = some pid) :
    (save_tasks σ n df).tasks =
      σ.tasks.filter (fun t => !(t.project_id == pid)) ++ insertRows pid σ.nextTaskId df := by
  unfold save_tasks; rw [h]

theorem insertRows_map_convRow (pid tid : Nat) (df : List Record) :
    (insertRows pid tid df).map convRow = df := by
  induction df generalizing tid with
  | nil => rfl
  | cons r rest ih =>
      simp only [insertRows, List.map_cons, ih]
      congr 1

theorem insertRows_map_id (pid tid : Nat) (df : List Record) :
    (insertRows pid tid df).map TaskRow.id = List.range' tid df.length := by
  induction df generalizing tid with
  | nil => rfl
  | cons r rest ih => simp [insertRows, List.range'_succ, ih]

theorem mem_insertRows {t : TaskRow} {pid tid : Nat} {df : List Record}
    (h : t ∈ insertRows pid tid df) :
    t.project_id = pid ∧ ∃ r ∈ df, t.sno = SqlVal.vint r.sno ∧ convRow t = r := by
  induction df generalizing tid with
  | nil => exact absurd h (by simp [insertRows])
  | cons r rest ih =>
      simp only [insertRows, List.mem_cons] at h
      cases h with
      | inl h => subst h; exact ⟨rfl, r, by simp, rfl, rfl⟩
      | inr h =>
          obtain ⟨hpid, r', hr', hsno, hconv⟩ := ih h
          exact ⟨hpid, r', List.mem_cons_of_mem _ hr', hsno, hconv⟩

theorem insertRows_id_bounds {t : TaskRow} {pid tid : Nat} {df : List Record}
    (h : t ∈ insertRows pid tid df) : tid ≤ t.id ∧ t.id < tid + df.length := by
  have : t.id ∈ (insertRows pid tid df).map TaskRow.id := List.mem_map_of_mem _ h
  rw [insertRows_map_id] at this
  exact List.mem_range'_1.mp this

/-! ### Claims -/

/-- C3: in every state in which no project named `name` exists,
`save_tasks(name, records)` raises no error and performs no writes: the
whole state (both tables and the counters) is unchanged afterwards. -/
theorem save_tasks_missing_project_noop (σ : DBState) (n : String) (df : List Record)
    (h : ∀ p ∈ σ.projects, p.name ≠ n) : save_tasks σ n df = σ := by
  unfold save_tasks
  rw [get_project_id_eq_none_iff.mpr h]

theorem save_tasks_missing_project_noop_witness :
    (∀ p ∈ (⟨[⟨1, "Audit"⟩], [], 2, 1⟩ : DBState).projects, p.name ≠ "Ghost") ∧
    save_tasks ⟨[⟨1, "Audit"⟩], [], 2, 1⟩ "Ghost" [⟨1, "x", "", "Pending"⟩]
      = ⟨[⟨1, "Audit"⟩], [], 2, 1⟩ :=
  ⟨by decide, save_tasks_missing_project_noop _ _ _ (by decide)⟩

/-- C4: `load_tasks` on a name with no project row returns the empty
collection, and `load_tasks` on an existing project with zero task rows also
returns the empty collection; being a total function, it raises no error. -/
theorem load_tasks_empty_on_missing_or_no_tasks (σ : DBState) (n : String) :
    ((∀ p ∈ σ.projects, p.name ≠ n) → load_tasks σ n = []) ∧
    (∀ pid, get_project_id σ n = some pid →
      (∀ t ∈ σ.tasks, t.project_id ≠ pid) → load_tasks σ n = []) := by
  constructor
  · intro h
    unfold load_tasks
    rw [get_project_id_eq_none_iff.mpr h]
    rfl
  · intro pid hpid h
    have hfil : σ.tasks.filter (fun t => t.project_id == pid) = [] :=
      List.filter_eq_nil_iff.mpr (fun t ht => by simpa using h t ht)
    unfold load_tasks
    rw [hpid]
    simp [hfil, List.insertionSort, empty_df]

theorem load_tasks_empty_on_missing_or_no_tasks_witness :
    load_tasks (⟨[⟨1, "Audit"⟩], [], 2, 1⟩ : DBState) "Ghost" = [] ∧
    load_tasks (⟨[⟨1, "Audit"⟩], [], 2, 1⟩ : DBState) "Audit" = [] :=
  ⟨(load_tasks_empty_on_missing_or_no_tasks _ "Ghost").1 (by decide),
   (load_tasks_empty_on_missing_or_no_tasks _ "Audit").2 1 (by decide) (by decide)⟩

/-- C5: on an existing project, saving an empty record set deletes every task
row of that project, and a subsequent `load_tasks` returns the empty
collection. -/
theorem save_tasks_empty_clears (σ : DBState) (n : String) (pid : Nat)
    (h : get_project_id σ n = some pid) :
    (∀ t ∈ (save_tasks σ n []).tasks, t.project_id ≠ pid) ∧
    load_tasks (save_tasks σ n []) n = [] := by
  have htasks : (save_tasks σ n []).tasks
      = σ.tasks.filter (fun t => !(t.project_id == pid)) := by
    rw [save_tasks_tasks [] h]
    simp [insertRows]
  have hmem : ∀ t ∈ (save_tasks σ n []).tasks, t.project_id ≠ pid := by
    intro t ht
    rw [htasks] at ht
    simpa using (List.mem_filter.mp ht).2
  refine ⟨hmem, ?_⟩
  have hgp : get_project_id (save_tasks σ n []) n = some pid := by
    rw [get_project_id_congr n (save_tasks_projects σ n [])]; exact h
  have hfil : (save_tasks σ n []).tasks.filter (fun t => t.project_id == pid) = [] :=
    List.filter_eq_nil_iff.mpr (fun t ht => by simpa using hmem t ht)
  unfold load_tasks
  rw [hgp]
  simp [hfil, List.insertionSort, empty_df]

theorem save_tasks_empty_clears_witness :
    (∀ t ∈ (save_tasks ⟨[⟨1, "Audit"⟩],
        [⟨1, 1, .vint 1, .vtext "a", .vtext "", .vtext "Pending"⟩], 2, 2⟩ "Audit" []).tasks,
      t.project_id ≠ 1) ∧
    load_tasks (save_tasks ⟨[⟨1, "Audit"⟩],
        [⟨1, 1, .vint 1, .vtext "a", .vtext "", .vtext "Pending"⟩], 2, 2⟩ "Audit" []) "Audit"
      = [] :=
  save_tasks_empty_clears _ "Audit" 1 (by decide)

/-- C9: on an existing project, `save_tasks` leaves the projects table (and
its SERIAL counter) unchanged, and a task row of a different project is in
the resulting tasks table exactly when it was there before: only rows of the
saved project are deleted or inserted. -/
theorem save_tasks_frame (σ : DBState) (n : String) (df : List Record) (pid : Nat)
    (h : get_project_id σ n = some pid) :
    (save_tasks σ n df).projects = σ.projects ∧
    (save_tasks σ n df).nextProjectId = σ.nextProjectId ∧
    (∀ t : TaskRow, t.project_id ≠ pid →
      (t ∈ (save_tasks σ n df).tasks ↔ t ∈ σ.tasks)) := by
  refine ⟨save_tasks_projects σ n df, save_tasks_nextProjectId σ n df, ?_⟩
  intro t ht
  rw [save_tasks_tasks df h, List.mem_append]
  constructor
  · rintro (hf | hi)
    · exact (List.mem_filter.mp hf).1
    · exact absurd (mem_insertRows hi).1 ht
  · intro hmem
    exact Or.inl (List.mem_filter.mpr ⟨hmem, by simpa using ht⟩)

theorem save_tasks_frame_witness :
    (save_tasks ⟨[⟨1, "Audit"⟩, ⟨2, "Ops"⟩],
        [⟨1, 2, .vint 1, .vtext "keep", .vtext "", .vtext "Pending"⟩], 3, 2⟩
      "Audit" [⟨1, "new", "", "Pending"⟩]).projects
      = [⟨1, "Audit"⟩, ⟨2, "Ops"⟩] ∧
    ((⟨1, 2, .vint 1, .vtext "keep", .vtext "", .vtext "Pending"⟩ : TaskRow)
      ∈ (save_tasks ⟨[⟨1, "Audit"⟩, ⟨2, "Ops"⟩],
          [⟨1, 2, .vint 1, .vtext "keep", .vtext "", .vtext "Pending"⟩], 3, 2⟩
        "Audit" [⟨1, "new", "", "Pending"⟩]).tasks
      ↔ (⟨1, 2, .vint 1, .vtext "keep", .vtext "", .vtext "Pending"⟩ : TaskRow)
        ∈ [(⟨1, 2, .vint 1, .vtext "keep", .vtext "", .vtext "Pending"⟩ : TaskRow)]) :=
  ⟨(save_tasks_frame _ "Audit" _ 1 (by decide)).1,
   (save_tasks_frame _ "Audit" _ 1 (by decide)).2.2 _ (by decide)⟩

/-- C2: `delete_project(name)` leaves no project row named `name`, keeps
every other project row, removes exactly the task rows whose `project_id`
referenced a project row named `name` (the cascade), and is a no-op raising
no error when no such project exists. -/
theorem delete_project_cascade_spec (σ : DBState) (n : String) :
    (∀ p ∈ (delete_project σ n).projects, p.name ≠ n) ∧
    (∀ p ∈ σ.projects, p.name ≠ n → p ∈ (delete_project σ n).projects) ∧
    (∀ t ∈ (delete_project σ n).tasks, ∀ p ∈ σ.projects, p.name = n →
      t.project_id ≠ p.id) ∧
    (∀ t ∈ σ.tasks, (∀ p ∈ σ.projects, p.name = n → t.project_id ≠ p.id) →
      t ∈ (delete_project σ n).tasks) ∧
    ((∀ p ∈ σ.projects, p.name ≠ n) → delete_project σ n = σ) := by
  refine ⟨?_, ?_, ?_, ?_, ?_⟩
  · intro p hp
    have := (List.mem_filter.mp hp).2
    simpa using this
  · intro p hp hpn
    exact List.mem_filter.mpr ⟨hp, by simpa using hpn⟩
  · intro t ht p hp hpn
    have hall := (List.mem_filter.mp ht).2
    rw [List.all_eq_true] at hall
    have hmem : p ∈ σ.projects.filter (fun q => q.name == n) :=
      List.mem_filter.mpr ⟨hp, by simp [hpn]⟩
    simpa using hall p hmem
  · intro t ht h
    refine List.mem_filter.mpr ⟨ht, ?_⟩
    rw [List.all_eq_true]
    intro p hp
    have hp' := List.mem_filter.mp hp
    have := h p hp'.1 (by simpa using hp'.2)
    simpa using this
  · intro h
    have h0 : σ.projects.filter (fun p => p.name == n) = [] :=
      List.filter_eq_nil_iff.mpr (fun p hp => by simpa using h p hp)
    have h1 : σ.projects.filter (fun p => !(p.name == n)) = σ.projects :=
      List.filter_eq_self.mpr (fun p hp => by simpa using h p hp)
    unfold delete_project
    rw [h0, h1]
    simp

theorem delete_project_cascade_spec_witness :
    ((⟨2, "Ops"⟩ : ProjectRow)
        ∈ (delete_project ⟨[⟨1, "Audit"⟩, ⟨2, "Ops"⟩],
            [⟨1, 1, .vint 1, .vtext "a", .vtext "", .vtext "Pending"⟩,
             ⟨2, 2, .vint 1, .vtext "b", .vtext "", .vtext "Partial"⟩], 3, 3⟩
          "Audit").projects) ∧
    ((⟨2, 2, .vint 1, .vtext "b", .vtext "", .vtext "Partial"⟩ : TaskRow).project_id ≠ 1) ∧
    ((⟨2, 2, .vint 1, .vtext "b", .vtext "", .vtext "Partial"⟩ : TaskRow)
        ∈ (delete_project ⟨[⟨1, "Audit"⟩, ⟨2, "Ops"⟩],
            [⟨1, 1, .vint 1, .vtext "a", .vtext "", .vtext "Pending"⟩,
             ⟨2, 2, .vint 1, .vtext "b", .vtext "", .vtext "Partial"⟩], 3, 3⟩
          "Audit").tasks) ∧
    delete_project ⟨[⟨1, "Audit"⟩], [], 2, 1⟩ "Ghost" = ⟨[⟨1, "Audit"⟩], [], 2, 1⟩ :=
  ⟨(delete_project_cascade_spec _ "Audit").2.1 _ (by decide) (by decide),
   (delete_project_cascade_spec
      (⟨[⟨1, "Audit"⟩, ⟨2, "Ops"⟩],
        [⟨1, 1, .vint 1, .vtext "a", .vtext "", .vtext "Pending"⟩,
         ⟨2, 2, .vint 1, .vtext "b", .vtext "", .vtext "Partial"⟩], 3, 3⟩ : DBState)
      "Audit").2.2.1 _ (by decide) ⟨1, "Audit"⟩ (by decide) (by decide),
   (delete_project_cascade_spec _ "Audit").2.2.2.1 _ (by decide) (by decide),
   (delete_project_cascade_spec _ "Ghost").2.2.2.2 (by decide)⟩

/-- C6: in every well-formed state that already has a project named `name`,
`create_project(name)` fails with the UNIQUE-constraint violation surfaced to
the caller, the state is unchanged, and the projects table holds exactly one
row with that name. -/
theorem create_project_duplicate_rejected (σ : DBState) (n : String)
    (hwf : WF σ) (h : ∃ p ∈ σ.projects, p.name = n) :
    create_project σ n = .error .uniqueViolation ∧
    (σ.projects.filter (fun p => p.name == n)).length = 1 := by
  obtain ⟨p, hp, hpn⟩ := h
  have hany : σ.projects.any (fun p => p.name == n) = true :=
    List.any_eq_true.mpr ⟨p, hp, by simp [hpn]⟩
  constructor
  · unfold create_project
    rw [hany]
    rfl
  · have hmemname : n ∈ σ.projects.map ProjectRow.name :=
      hpn ▸ List.mem_map_of_mem ProjectRow.name hp
    have hcount : (σ.projects.map ProjectRow.name).count n = 1 :=
      List.count_eq_one_of_mem hwf.2.1 hmemname
    have hlen : (σ.projects.filter (fun p => p.name == n)).length
        = (σ.projects.map ProjectRow.name).count n := by
      rw [List.count_eq_countP, List.countP_map, ← List.countP_eq_length_filter]
      rfl
    rw [hlen, hcount]

theorem create_project_duplicate_rejected_witness :
    create_project ⟨[⟨1, "Audit"⟩], [], 2, 1⟩ "Audit" = .error .uniqueViolation ∧
    ((⟨[⟨1, "Audit"⟩], [], 2, 1⟩ : DBState).projects.filter
        (fun p => p.name == "Audit")).length = 1 :=
  create_project_duplicate_rejected _ "Audit" (by decide) ⟨⟨1, "Audit"⟩, by decide, rfl⟩

/-! ### Sorting an appended maximal element -/

theorem orderedInsert_append_last {α : Type} (r : α → α → Prop) [DecidableRel r]
    (a m : α) (s : List α) (ham : r a m) :
    (s ++ [m]).orderedInsert r a = s.orderedInsert r a ++ [m] := by
  induction s with
  | nil => simp [List.orderedInsert, ham]
  | cons b s ih =>
      simp only [List.cons_append, List.orderedInsert]
      split <;> simp [ih]

theorem insertionSort_append_last {α : Type} (r : α → α → Prop) [DecidableRel r]
    (m : α) (l : List α) (h : ∀ a ∈ l, r a m) :
    (l ++ [m]).insertionSort r = l.insertionSort r ++ [m] := by
  induction l with
  | nil => simp [List.insertionSort, List.orderedInsert]
  | cons a l ih =>
      have ih' := ih (fun x hx => h x (List.mem_cons_of_mem _ hx))
      calc ((a :: l) ++ [m]).insertionSort r
          = ((l ++ [m]).insertionSort r).orderedInsert r a := rfl
        _ = (l.insertionSort r ++ [m]).orderedInsert r a := by rw [ih']
        _ = (l.insertionSort r).orderedInsert r a ++ [m] :=
            orderedInsert_append_last r a m _ (h a (List.mem_cons_self _ _))
        _ = (a :: l).insertionSort r ++ [m] := rfl

/-- C7: `get_projects` lists the project names in creation order (ascending
surrogate id); after a successful `create_project n` on a well-formed state,
the listing is the old listing with `n` appended — it includes `n` exactly
once and preserves the order of all previously listed names. -/
theorem create_then_list_projects (σ σ' : DBState) (n : String)
    (hwf : WF σ) (hok : create_project σ n = .ok σ') :
    get_projects σ' = get_projects σ ++ [n] ∧
    (get_projects σ').count n = 1 := by
  unfold create_project at hok
  cases hany : σ.projects.any (fun p => p.name == n) with
  | true => rw [hany] at hok; exact absurd hok (by simp)
  | false =>
      rw [hany] at hok
      simp only [Bool.false_eq_true, if_false, Except.ok.injEq] at hok
      have hnot : ∀ p ∈ σ.projects, p.name ≠ n := by
        intro p hp
        have := List.any_eq_false.mp hany p hp
        simpa using this
      have hmax : ∀ p ∈ σ.projects, projLe p (ProjectRow.mk σ.nextProjectId n) :=
        fun p hp => Nat.le_of_lt (hwf.2.2.1 p hp)
      have hsort : List.insertionSort projLe (σ.projects ++ [ProjectRow.mk σ.nextProjectId n])
          = List.insertionSort projLe σ.projects ++ [ProjectRow.mk σ.nextProjectId n] :=
        insertionSort_append_last projLe _ _ hmax
      have heq : get_projects σ' = get_projects σ ++ [n] := by
        rw [← hok]
        unfold get_projects
        simp only
        rw [hsort, List.map_append]
        rfl
      refine ⟨heq, ?_⟩
      rw [heq, List.count_append]
      have hzero : (get_projects σ).count n = 0 := by
        apply List.count_eq_zero_of_not_mem
        intro hmem
        have hperm : (σ.projects.insertionSort projLe).Perm σ.projects :=
          List.perm_insertionSort projLe σ.projects
        unfold get_projects at hmem
        obtain ⟨p, hp, hpn⟩ := List.mem_map.mp hmem
        exact hnot p (hperm.mem_iff.mp hp) hpn
      simp [hzero]

theorem create_then_list_projects_witness :
    get_projects ⟨[⟨1, "Audit"⟩, ⟨2, "Ops"⟩], [], 3, 1⟩
      = get_projects ⟨[⟨1, "Audit"⟩], [], 2, 1⟩ ++ ["Ops"] ∧
    (get_projects ⟨[⟨1, "Audit"⟩, ⟨2, "Ops"⟩], [], 3, 1⟩).count "Ops" = 1 :=
  create_then_list_projects _ _ "Ops" (by decide) rfl

/-- C1: for every state with an existing project, `save_tasks` followed by
`load_tasks` on that project returns exactly the saved records (a
permutation — the surrogate `id` is never part of a record), ordered by
`sno` ascending. -/
theorem save_then_load_roundtrip (σ : DBState) (p : String) (df : List Record) (pid : Nat)
    (h : get_project_id σ p = some pid) :
    (load_tasks (save_tasks σ p df) p).Perm df ∧
    List.Sorted recLe (load_tasks (save_tasks σ p df) p) := by
  have hgp : get_project_id (save_tasks σ p df) p = some pid := by
    rw [get_project_id_congr p (save_tasks_projects σ p df)]; exact h
  have hfilter : (save_tasks σ p df).tasks.filter (fun t => t.project_id == pid)
      = insertRows pid σ.nextTaskId df := by
    rw [save_tasks_tasks df h, List.filter_append]
    have h1 : (σ.tasks.filter (fun t => !(t.project_id == pid))).filter
        (fun t => t.project_id == pid) = [] := by
      apply List.filter_eq_nil_iff.mpr
      intro t ht
      have := (List.mem_filter.mp ht).2
      simp_all
    have h2 : (insertRows pid σ.nextTaskId df).filter (fun t => t.project_id == pid)
        = insertRows pid σ.nextTaskId df :=
      List.filter_eq_self.mpr (fun t ht => by simp [(mem_insertRows ht).1])
    rw [h1, h2, List.nil_append]
  unfold load_tasks
  rw [hgp]
  simp only [hfilter]
  cases hemp : (List.insertionSort taskLe (insertRows pid σ.nextTaskId df)).isEmpty with
  | true =>
      have hnil : List.insertionSort taskLe (insertRows pid σ.nextTaskId df) = [] :=
        List.isEmpty_iff.mp hemp
      have hins : insertRows pid σ.nextTaskId df = [] := by
        have hperm := List.perm_insertionSort taskLe (insertRows pid σ.nextTaskId df)
        rw [hnil] at hperm
        exact hperm.symm.eq_nil ▸ (List.Perm.nil_eq hperm).symm
      have hdf : df = [] := by
        have := insertRows_map_convRow pid σ.nextTaskId df
        rw [hins] at this
        simpa using this.symm
      simp [hdf, empty_df]
  | false =>
      simp only [Bool.false_eq_true, if_false]
      have hperm := List.perm_insertionSort taskLe (insertRows pid σ.nextTaskId df)
      constructor
      · have := hperm.map convRow
        rw [insertRows_map_convRow] at this
        exact this
      · have hsorted : List.Sorted taskLe
            (List.insertionSort taskLe (insertRows pid σ.nextTaskId df)) :=
          List.sorted_insertionSort taskLe _
        apply List.pairwise_map.mpr
        apply hsorted.imp_of_mem
        intro a b ha hb hab
        have ha' : a ∈ insertRows pid σ.nextTaskId df := hperm.subset ha
        have hb' : b ∈ insertRows pid σ.nextTaskId df := hperm.subset hb
        obtain ⟨-, ra, -, hsa, hca⟩ := mem_insertRows ha'
        obtain ⟨-, rb, -, hsb, hcb⟩ := mem_insertRows hb'
        unfold taskLe at hab
        rw [hsa, hsb] at hab
        simp only [sqlLe, decide_eq_true_eq] at hab
        unfold recLe
        rw [hca, hcb]
        exact hab

theorem save_then_load_roundtrip_witness :
    (load_tasks (save_tasks ⟨[⟨1, "Audit"⟩], [], 2, 1⟩ "Audit"
        [⟨2, "Patch CVE", "urgent", "Partial"⟩, ⟨1, "Review logs", "", "Pending"⟩])
      "Audit").Perm
      [⟨2, "Patch CVE", "urgent", "Partial"⟩, ⟨1, "Review logs", "", "Pending"⟩] ∧
    List.Sorted recLe
      (load_tasks (save_tasks ⟨[⟨1, "Audit"⟩], [], 2, 1⟩ "Audit"
          [⟨2, "Patch CVE", "urgent", "Partial"⟩, ⟨1, "Review logs", "", "Pending"⟩])
        "Audit") :=
  save_then_load_roundtrip _ "Audit" _ 1 (by decide)

/-! ### The schema constraints hold in every reachable state -/

theorem wf_initState : WF initState := by
  refine ⟨by simp [initState], by simp [initState], ?_, by simp [initState], ?_, ?_⟩ <;>
    simp [initState]

theorem wf_create {σ σ' : DBState} {n : String} (hwf : WF σ)
    (h : create_project σ n = .ok σ') : WF σ' := by
  unfold create_project at h
  cases hany : σ.projects.any (fun p => p.name == n) with
  | true => rw [hany] at h; exact absurd h (by simp)
  | false =>
      rw [hany] at h
      simp only [Bool.false_eq_true, if_false, Except.ok.injEq] at h
      obtain ⟨h1, h2, h3, h4, h5, h6⟩ := hwf
      have hnot : ∀ p ∈ σ.projects, p.name ≠ n := by
        intro p hp
        simpa using List.any_eq_false.mp hany p hp
      subst h
      refine ⟨?_, ?_, ?_, h4, h5, ?_⟩
      · rw [List.map_append, List.nodup_append]
        refine ⟨h1, by simp, ?_⟩
        intro x hx
        obtain ⟨p, hp, hpx⟩ := List.mem_map.mp hx
        have := h3 p hp
        simp only [List.map_cons, List.map_nil, List.mem_cons, List.not_mem_nil, or_false]
        omega
      · rw [List.map_append, List.nodup_append]
        refine ⟨h2, by simp, ?_⟩
        intro x hx
        obtain ⟨p, hp, hpx⟩ := List.mem_map.mp hx
        simp only [List.map_cons, List.map_nil, List.mem_cons, List.not_mem_nil, or_false]
        rw [← hpx]
        exact hnot p hp
      · intro p hp
        rcases List.mem_append.mp hp with hp' | hp'
        · exact Nat.lt_succ_of_lt (h3 p hp')
        · simp only [List.mem_cons, List.not_mem_nil, or_false] at hp'
          subst hp'
          exact Nat.lt_succ_self _
      · intro t ht
        obtain ⟨p, hp, hid⟩ := h6 t ht
        exact ⟨p, List.mem_append_left _ hp, hid⟩

theorem wf_delete {σ : DBState} (n : String) (hwf : WF σ) : WF (delete_project σ n) := by
  obtain ⟨h1, h2, h3, h4, h5, h6⟩ := hwf
  unfold delete_project
  refine ⟨?_, ?_, ?_, ?_, ?_, ?_⟩
  · exact List.Sublist.nodup ((List.filter_sublist _).map ProjectRow.id) h1
  · exact List.Sublist.nodup ((List.filter_sublist _).map ProjectRow.name) h2
  · intro p hp
    exact h3 p (List.mem_filter.mp hp).1
  · exact List.Sublist.nodup ((List.filter_sublist _).map TaskRow.id) h4
  · intro t ht
    exact h5 t (List.mem_filter.mp ht).1
  · intro t ht
    obtain ⟨ht', hall⟩ := List.mem_filter.mp ht
    obtain ⟨p, hp, hid⟩ := h6 t ht'
    refine ⟨p, List.mem_filter.mpr ⟨hp, ?_⟩, hid⟩
    by_contra hpn
    simp only [Bool.not_eq_true', Bool.not_eq_false, beq_iff_eq] at hpn
    have hpr : p ∈ σ.projects.filter (fun q => q.name == n) :=
      List.mem_filter.mpr ⟨hp, by simp [hpn]⟩
    have := List.all_eq_true.mp hall p hpr
    simp [hid] at this

theorem wf_save {σ : DBState} (n : String) (df : List Record) (hwf : WF σ) :
    WF (save_tasks σ n df) := by
  cases hg : get_project_id σ n with
  | none => unfold save_tasks; rw [hg]; exact hwf
  | some pid =>
      obtain ⟨h1, h2, h3, h4, h5, h6⟩ := hwf
      unfold save_tasks
      rw [hg]
      refine ⟨h1, h2, h3, ?_, ?_, ?_⟩
      · rw [List.map_append, List.nodup_append]
        refine ⟨List.Sublist.nodup ((List.filter_sublist _).map TaskRow.id) h4, ?_, ?_⟩
        · rw [insertRows_map_id]
          exact List.nodup_range' _ _
        · intro x hx
          obtain ⟨t, ht, htx⟩ := List.mem_map.mp hx
          have hlt := h5 t (List.mem_filter.mp ht).1
          rw [insertRows_map_id]
          intro hx'
          have := List.mem_range'_1.mp hx'
          omega
      · intro t ht
        rcases List.mem_append.mp ht with ht' | ht'
        · have := h5 t (List.mem_filter.mp ht').1
          simp only []
          omega
        · have := insertRows_id_bounds ht'
          simp only []
          omega
      · intro t ht
        rcases List.mem_append.mp ht with ht' | ht'
        · exact h6 t (List.mem_filter.mp ht').1
        · obtain ⟨p, hp, -, hid⟩ := exists_of_get_project_id_eq_some hg
          exact ⟨p, hp, by rw [(mem_insertRows ht').1, hid]⟩

theorem reachable_wf {σ : DBState} (h : Reachable σ) : WF σ := by
  induction h with
  | init => exact wf_initState
  | create σ σ' n hr hok ih => exact wf_create ih hok
  | delete σ n hr ih => exact wf_delete n ih
  | save σ n df hr ih => exact wf_save n df ih

/-- C8: in every state reachable from the empty store by the data-access
operations, every task row references exactly one existing project row
through its `project_id`. -/
theorem task_references_unique_project (σ : DBState) (h : Reachable σ) :
    ∀ t ∈ σ.tasks, ∃! p, p ∈ σ.projects ∧ t.project_id = p.id := by
  have hwf := reachable_wf h
  intro t ht
  obtain ⟨p, hp, hid⟩ := hwf.2.2.2.2.2 t ht
  refine ⟨p, ⟨hp, hid⟩, ?_⟩
  rintro q ⟨hq, hqid⟩
  exact List.inj_on_of_nodup_map hwf.1 hq hp (by rw [← hqid, ← hid])

theorem task_references_unique_project_witness :
    ∃! q, q ∈ (save_tasks ⟨[⟨1, "Audit"⟩], [], 2, 1⟩ "Audit"
        [⟨1, "Review logs", "", "Pending"⟩]).projects ∧
      (⟨1, 1, .vint 1, .vtext "Review logs", .vtext "", .vtext "Pending"⟩
        : TaskRow).project_id = q.id :=
  task_references_unique_project _
    (Reachable.save ⟨[⟨1, "Audit"⟩], [], 2, 1⟩ "Audit" [⟨1, "Review logs", "", "Pending"⟩]
      (Reachable.create initState ⟨[⟨1, "Audit"⟩], [], 2, 1⟩ "Audit" Reachable.init rfl))
    _ (by decide)

/-- C10: every record `load_tasks` returns is the column-coerced image
(`convRow`) of a stored task row, so it is well-formed at the public
interface: `sno` is an integer (a NULL or non-parsing stored value is
coerced to 0, an integer is kept), `task` and `comments` are strings (NULL
coerced to the empty string), and `status` is a string (NULL coerced to
"Pending"). -/
theorem load_tasks_records_wellformed :
    (∀ (σ : DBState) (n : String) (r : Record), r ∈ load_tasks σ n →
      ∃ t ∈ σ.tasks, r = convRow t) ∧
    (∀ t : TaskRow, t.sno = SqlVal.vnull → (convRow t).sno = 0) ∧
    (∀ t : TaskRow, ∀ s : String, t.sno = SqlVal.vtext s → str_to_int? s = none →
      (convRow t).sno = 0) ∧
    (∀ t : TaskRow, ∀ i : Int, t.sno = SqlVal.vint i → (convRow t).sno = i) ∧
    (∀ t : TaskRow, t.task = SqlVal.vnull → (convRow t).task = "") ∧
    (∀ t : TaskRow, t.comments = SqlVal.vnull → (convRow t).comments = "") ∧
    (∀ t : TaskRow, t.status = SqlVal.vnull → (convRow t).status = "Pending") := by
  refine ⟨?_, ?_, ?_, ?_, ?_, ?_, ?_⟩
  · intro σ n r hr
    unfold load_tasks at hr
    cases hg : get_project_id σ n with
    | none => rw [hg] at hr; exact absurd hr (by simp [empty_df])
    | some pid =>
        rw [hg] at hr
        simp only at hr
        split at hr
        · exact absurd hr (by simp [empty_df])
        · obtain ⟨t, ht, hconv⟩ := List.mem_map.mp hr
          have ht' : t ∈ σ.tasks.filter (fun u => u.project_id == pid) :=
            (List.perm_insertionSort taskLe _).subset ht
          exact ⟨t, (List.mem_filter.mp ht').1, hconv.symm⟩
  · intro t h; simp [convRow, to_numeric_coerce, h]
  · intro t s h hs; simp [convRow, to_numeric_coerce, h, hs]
  · intro t i h; simp [convRow, to_numeric_coerce, h]
  · intro t h; simp [convRow, fillna_str, h]
  · intro t h; simp [convRow, fillna_str, h]
  · intro t h; simp [convRow, fillna_str, h]

theorem load_tasks_records_wellformed_witness :
    (∃ t ∈ (⟨[⟨1, "Audit"⟩],
        [⟨1, 1, .vint 1, .vtext "a", .vtext "", .vtext "Pending"⟩], 2, 2⟩
          : DBState).tasks,
      (⟨1, "a", "", "Pending"⟩ : Record) = convRow t) ∧
    (convRow ⟨1, 1, .vnull, .vnull, .vnull, .vnull⟩).sno = 0 ∧
    (convRow ⟨1, 1, .vtext "oops", .vnull, .vnull, .vnull⟩).sno = 0 ∧
    (convRow ⟨1, 1, .vint 7, .vnull, .vnull, .vnull⟩).sno = 7 ∧
    (convRow ⟨1, 1, .vnull, .vnull, .vnull, .vnull⟩).task = "" ∧
    (convRow ⟨1, 1, .vnull, .vnull, .vnull, .vnull⟩).comments = "" ∧
    (convRow ⟨1, 1, .vnull, .vnull, .vnull, .vnull⟩).status = "Pending" :=
  ⟨load_tasks_records_wellformed.1 _ "Audit" _ (by decide),
   load_tasks_records_wellformed.2.1 _ rfl,
   load_tasks_records_wellformed.2.2.1 _ "oops" rfl (by decide),
   load_tasks_records_wellformed.2.2.2.1 _ 7 rfl,
   load_tasks_records_wellformed.2.2.2.2.1 _ rfl,
   load_tasks_records_wellformed.2.2.2.2.2.1 _ rfl,
   load_tasks_records_wellformed.2.2.2.2.2.2 _ rfl⟩

end NutraIQX
